import Mathlib

/-!
Shallow embedding of the XOR finite-difference neural network
(`neural_net.h` matrix library plus the XOR driver defining `forward_xor`,
`cost`, `finite_diff`, `xor_learn`).

Modelling conventions:
* `float` values are modelled as real numbers (`ℝ`).
* A matrix buffer (`float *es`) is modelled as a total function `ℕ → ℝ`
  from flat element offsets to values; a store writes one offset.
  Row views (`mat_row`) share the parent buffer through an offset shift.
* In-place C procedures become pure functions returning the updated
  matrix / model, with state threaded explicitly.
* Doubly nested `for` loops are folds over the list of index pairs in
  execution order (`loopPairs`); a `+=` inner loop over `k` is a fold
  over `List.range`.
* `NN_ASSERT` shape checks either appear as an `Option` result
  (`mat_dot`, whose assertion behaviour claim C9 is about) or as
  hypotheses of the theorems (for `cost`), with the loop bodies factored
  as `_go` functions.
-/

namespace XorNN

/-- The `Mat` struct of `neural_net.h`: `rows`, `cols`, `stride` (all
`size_t`) and the element buffer `es`, modelled as a total function from
flat offsets to reals. -/
structure Mat where
  rows : ℕ
  cols : ℕ
  stride : ℕ
  es : ℕ → ℝ

/-- A single store into a flat buffer: offset `a` receives `v`. -/
def store (e : ℕ → ℝ) (a : ℕ) (v : ℝ) : ℕ → ℝ :=
  fun n => if n = a then v else e n

/-- `MAT_AT(m, i, j)`, i.e. `m.es[i*m.stride + j]` (read). -/
def matAt (m : Mat) (i j : ℕ) : ℝ := m.es (i * m.stride + j)

/-- `MAT_AT(m, i, j) = v` (write). -/
def matSet (m : Mat) (i j : ℕ) (v : ℝ) : Mat :=
  { m with es := store m.es (i * m.stride + j) v }

/-- Index pairs `(i, j)` of a doubly nested loop
`for (i = 0; i < outer; ++i) for (j = 0; j < inner; ++j)`,
in execution order. -/
def loopPairs (outer inner : ℕ) : List (ℕ × ℕ) :=
  (List.range outer).flatMap fun i => (List.range inner).map fun j => (i, j)

/-- `sigmoidf(x) = 1.f / (1.f + expf(-x))`. -/
noncomputable def sigmoidf (x : ℝ) : ℝ := 1 / (1 + Real.exp (-x))

/-- `mat_alloc(rows, cols)`: fresh owning matrix with `stride = cols`.
The freshly `malloc`ed buffer contents are modelled as zero. -/
def mat_alloc (rows cols : ℕ) : Mat :=
  { rows := rows, cols := cols, stride := cols, es := fun _ => 0 }

/-- `mat_fill(m, x)`: every in-range element set to `x`. -/
def mat_fill (m : Mat) (x : ℝ) : Mat :=
  { m with
    es := (loopPairs m.rows m.cols).foldl
      (fun e p => store e (p.1 * m.stride + p.2) x) m.es }

/-- `mat_row(m, row)`: non-owning 1×cols view of row `row`, sharing the
parent buffer (`es = &MAT_AT(m, row, 0)` becomes an offset shift). -/
def mat_row (m : Mat) (row : ℕ) : Mat :=
  { rows := 1, cols := m.cols, stride := m.stride,
    es := fun n => m.es (row * m.stride + n) }

/-- Loop body of `mat_copy(dst, src)` (runs once the equal-shape
assertions pass): `MAT_AT(dst,i,j) = MAT_AT(src,i,j)` over dst's range. -/
def mat_copy_go (dst src : Mat) : Mat :=
  { dst with
    es := (loopPairs dst.rows dst.cols).foldl
      (fun e p => store e (p.1 * dst.stride + p.2) (matAt src p.1 p.2)) dst.es }

/-- Loop body of `mat_sum(dst, a)` (runs once the equal-shape assertions
pass): `MAT_AT(dst,i,j) += MAT_AT(a,i,j)` over dst's range. -/
def mat_sum_go (dst a : Mat) : Mat :=
  { dst with
    es := (loopPairs dst.rows dst.cols).foldl
      (fun e p =>
        store e (p.1 * dst.stride + p.2)
          (e (p.1 * dst.stride + p.2) + matAt a p.1 p.2)) dst.es }

/-- `mat_sig(m)`: `MAT_AT(m,i,j) = sigmoidf(MAT_AT(m,i,j))` over m's
range (no assertions in the source). -/
noncomputable def mat_sig (m : Mat) : Mat :=
  { m with
    es := (loopPairs m.rows m.cols).foldl
      (fun e p =>
        store e (p.1 * m.stride + p.2) (sigmoidf (e (p.1 * m.stride + p.2)))) m.es }

/-- Loop body of `mat_dot(dst, a, b)` (runs once the three shape
assertions pass): for each `(i, j)` of dst's range, the inner `k` loop
repeatedly executes `MAT_AT(dst,i,j) += MAT_AT(a,i,k) * MAT_AT(b,k,j)`,
accumulating onto the existing value (the destination is NOT zeroed). -/
def mat_dot_go (dst a b : Mat) : Mat :=
  { dst with
    es := (loopPairs dst.rows dst.cols).foldl
      (fun e p =>
        store e (p.1 * dst.stride + p.2)
          ((List.range a.cols).foldl
            (fun v k => v + matAt a p.1 k * matAt b k p.2)
            (e (p.1 * dst.stride + p.2)))) dst.es }

/-- `mat_dot(dst, a, b)` with its three `NN_ASSERT`s:
`a.cols == b.rows`, `dst.rows == a.rows`, `dst.cols == b.cols`.
`none` models the assertion firing; otherwise the triple loop runs. -/
def mat_dot (dst a b : Mat) : Option Mat :=
  if a.cols = b.rows ∧ dst.rows = a.rows ∧ dst.cols = b.cols then
    some (mat_dot_go dst a b)
  else
    none

/-- The `Xor` struct: activations `a0 a1 a2`, layer-1 parameters
`w1 b1`, layer-2 parameters `w2 b2`, and the ownership flag. -/
structure Xor where
  a0 : Mat
  a1 : Mat
  a2 : Mat
  w1 : Mat
  b1 : Mat
  w2 : Mat
  b2 : Mat
  owns_matrices : Int

/-- `xor_alloc`: the fixed 2-2-1 topology, `owns_matrices = 1`. -/
def xor_alloc : Xor :=
  { a0 := mat_alloc 1 2
    w1 := mat_alloc 2 2
    b1 := mat_alloc 1 2
    a1 := mat_alloc 1 2
    w2 := mat_alloc 2 1
    b2 := mat_alloc 1 1
    a2 := mat_alloc 1 1
    owns_matrices := 1 }

/-- `forward_xor(m)`: layer 1 `a1 = σ(a1 + a0·w1 + b1)` then layer 2
`a2 = σ(a2 + a1·w2 + b2)` — written with the accumulating `mat_dot`
loop body, exactly as the source calls `mat_dot`, `mat_sum`, `mat_sig`
(all shape assertions pass for models shaped like `xor_alloc`). -/
noncomputable def forward_xor (m : Xor) : Xor :=
  let a1 := mat_sig (mat_sum_go (mat_dot_go m.a1 m.a0 m.w1) m.b1)
  let a2 := mat_sig (mat_sum_go (mat_dot_go m.a2 a1 m.w2) m.b2)
  { m with a1 := a1, a2 := a2 }

/-- One iteration of the row loop in `cost`: copy row `i` of `ti` into
`a0`, run the forward pass, and add `Σ_j (a2[0][j] - y[0][j])²` to the
accumulator (the inner `j` loop executes `c += d*d`). -/
noncomputable def costStep (ti tout : Mat) (acc : ℝ × Xor) (i : ℕ) : ℝ × Xor :=
  let x := mat_row ti i
  let y := mat_row tout i
  let m1 := forward_xor { acc.2 with a0 := mat_copy_go acc.2.a0 x }
  (acc.1 + ∑ j in Finset.range tout.cols,
      (matAt m1.a2 0 j - matAt y 0 j) * (matAt m1.a2 0 j - matAt y 0 j),
    m1)

/-- `cost(m, ti, to)` as scalar result plus the mutated model (the loop
mutates `a0`, `a1`, `a2` through the forward passes); the returned
scalar is `c / n` with `n = ti.rows`.  The three `NN_ASSERT` shape
checks of the source appear as hypotheses of the theorems about it. -/
noncomputable def costFull (m : Xor) (ti tout : Mat) : ℝ × Xor :=
  let r := (List.range ti.rows).foldl (costStep ti tout) (0, m)
  (r.1 / (ti.rows : ℝ), r.2)

/-- The scalar returned by `cost(m, ti, to)`. -/
noncomputable def cost (m : Xor) (ti tout : Mat) : ℝ := (costFull m ti tout).1

/-- The model state after `cost` has processed rows `0 .. k-1`
(`a0`, `a1`, `a2` mutated by the successive forward passes). -/
noncomputable def costState (m : Xor) (ti tout : Mat) (k : ℕ) : Xor :=
  ((List.range k).foldl (costStep ti tout) (0, m)).2

/-- The squared error that row `i` contributes inside `cost`:
`Σ_j (a2[0][j] - y[0][j])²`, read from the model state right after the
forward pass of row `i` (proof-side name for the term accumulated by
`costStep`). -/
noncomputable def rowErr (m : Xor) (ti tout : Mat) (i : ℕ) : ℝ :=
  ∑ j in Finset.range tout.cols,
    (matAt (costState m ti tout (i + 1)).a2 0 j - matAt (mat_row tout i) 0 j) *
    (matAt (costState m ti tout (i + 1)).a2 0 j - matAt (mat_row tout i) 0 j)

/-!
`finite_diff(m, g, ti, to, eps)`: baseline `c = cost(m, ti, to)` once,
then four unrolled loop nests, one per parameter matrix.  Note the loop
bounds of the source: the OUTER index `i` runs to `cols` and the INNER
index `j` runs to `rows`, while the element accessed is
`MAT_AT(·, i, j)` — transcribed verbatim below via
`loopPairs m.X.cols m.X.rows`.  Each loop body saves the slot, perturbs
it by `+eps`, re-evaluates `cost` (which mutates the activations of the
perturbed model), writes the difference quotient into `g`, and restores
the saved value.  State `(model, gradient)` is threaded through folds.
-/

/-- Body of the `w1` loop nest of `finite_diff`. -/
noncomputable def fdStepW1 (ti tout : Mat) (eps c : ℝ) (acc : Xor × Xor)
    (p : ℕ × ℕ) : Xor × Xor :=
  let saved := matAt acc.1.w1 p.1 p.2
  let m1 : Xor := { acc.1 with w1 := matSet acc.1.w1 p.1 p.2 (saved + eps) }
  let cm := costFull m1 ti tout
  let g1 : Xor := { acc.2 with w1 := matSet acc.2.w1 p.1 p.2 ((cm.1 - c) / eps) }
  ({ cm.2 with w1 := matSet cm.2.w1 p.1 p.2 saved }, g1)

/-- Body of the `b1` loop nest of `finite_diff`. -/
noncomputable def fdStepB1 (ti tout : Mat) (eps c : ℝ) (acc : Xor × Xor)
    (p : ℕ × ℕ) : Xor × Xor :=
  let saved := matAt acc.1.b1 p.1 p.2
  let m1 : Xor := { acc.1 with b1 := matSet acc.1.b1 p.1 p.2 (saved + eps) }
  let cm := costFull m1 ti tout
  let g1 : Xor := { acc.2 with b1 := matSet acc.2.b1 p.1 p.2 ((cm.1 - c) / eps) }
  ({ cm.2 with b1 := matSet cm.2.b1 p.1 p.2 saved }, g1)

/-- Body of the `w2` loop nest of `finite_diff`. -/
noncomputable def fdStepW2 (ti tout : Mat) (eps c : ℝ) (acc : Xor × Xor)
    (p : ℕ × ℕ) : Xor × Xor :=
  let saved := matAt acc.1.w2 p.1 p.2
  let m1 : Xor := { acc.1 with w2 := matSet acc.1.w2 p.1 p.2 (saved + eps) }
  let cm := costFull m1 ti tout
  let g1 : Xor := { acc.2 with w2 := matSet acc.2.w2 p.1 p.2 ((cm.1 - c) / eps) }
  ({ cm.2 with w2 := matSet cm.2.w2 p.1 p.2 saved }, g1)

/-- Body of the `b2` loop nest of `finite_diff`. -/
noncomputable def fdStepB2 (ti tout : Mat) (eps c : ℝ) (acc : Xor × Xor)
    (p : ℕ × ℕ) : Xor × Xor :=
  let saved := matAt acc.1.b2 p.1 p.2
  let m1 : Xor := { acc.1 with b2 := matSet acc.1.b2 p.1 p.2 (saved + eps) }
  let cm := costFull m1 ti tout
  let g1 : Xor := { acc.2 with b2 := matSet acc.2.b2 p.1 p.2 ((cm.1 - c) / eps) }
  ({ cm.2 with b2 := matSet cm.2.b2 p.1 p.2 saved }, g1)

/-- `finite_diff(m, g, ti, to, eps)`: the baseline cost evaluation
followed by the four loop nests, with the loop bounds read off the
(unchanging) shape fields of `m` exactly as in the source
(`i < m->X.cols`, `j < m->X.rows`, accessing `MAT_AT(·, i, j)`).
Returns the final `(model, gradient)` pair. -/
noncomputable def finite_diff (m g : Xor) (ti tout : Mat) (eps : ℝ) :
    Xor × Xor :=
  let c0 := costFull m ti tout
  let s0 : Xor × Xor := (c0.2, g)
  let s1 := (loopPairs m.w1.cols m.w1.rows).foldl (fdStepW1 ti tout eps c0.1) s0
  let s2 := (loopPairs m.b1.cols m.b1.rows).foldl (fdStepB1 ti tout eps c0.1) s1
  let s3 := (loopPairs m.w2.cols m.w2.rows).foldl (fdStepW2 ti tout eps c0.1) s2
  (loopPairs m.b2.cols m.b2.rows).foldl (fdStepB2 ti tout eps c0.1) s3

/-- `xor_learn(m, g, rate)`: four unrolled loop nests, one per parameter
matrix, each executing `MAT_AT(m->X, i, j) -= rate * MAT_AT(g->X, i, j)`
with the same transposed bounds as `finite_diff`
(`i < m->X.cols`, `j < m->X.rows`). -/
def xor_learn (m g : Xor) (rate : ℝ) : Xor :=
  let w1 : Mat := { m.w1 with
    es := (loopPairs m.w1.cols m.w1.rows).foldl
      (fun e p => store e (p.1 * m.w1.stride + p.2)
        (e (p.1 * m.w1.stride + p.2) - rate * matAt g.w1 p.1 p.2)) m.w1.es }
  let b1 : Mat := { m.b1 with
    es := (loopPairs m.b1.cols m.b1.rows).foldl
      (fun e p => store e (p.1 * m.b1.stride + p.2)
        (e (p.1 * m.b1.stride + p.2) - rate * matAt g.b1 p.1 p.2)) m.b1.es }
  let w2 : Mat := { m.w2 with
    es := (loopPairs m.w2.cols m.w2.rows).foldl
      (fun e p => store e (p.1 * m.w2.stride + p.2)
        (e (p.1 * m.w2.stride + p.2) - rate * matAt g.w2 p.1 p.2)) m.w2.es }
  let b2 : Mat := { m.b2 with
    es := (loopPairs m.b2.cols m.b2.rows).foldl
      (fun e p => store e (p.1 * m.b2.stride + p.2)
        (e (p.1 * m.b2.stride + p.2) - rate * matAt g.b2 p.1 p.2)) m.b2.es }
  { m with w1 := w1, b1 := b1, w2 := w2, b2 := b2 }

/-- Modelled from the spec: a model whose activation buffers `a1`, `a2`
have been freshly zeroed (spec §8, "Idempotence of `forward` given
frozen parameters and a freshly zeroed activation buffer"); parameters
and `a0` are untouched.  Used to state the amended form of claim C4. -/
def freshActs (m : Xor) : Xor :=
  { m with
    a1 := { m.a1 with es := fun _ => 0 }
    a2 := { m.a2 with es := fun _ => 0 } }

/-- The training table `td[]` of the source, as a flat buffer
(offsets beyond the 12 literals are irrelevant and read as 0). -/
noncomputable def td : ℕ → ℝ := fun n =>
  [0, 0, 0, 0, 1, 1, 1, 0, 1, 1, 1, 0].getD n 0

/-- The `ti` matrix of `main`: 4 rows, 2 cols, stride 3, viewing `td`. -/
noncomputable def train_in : Mat :=
  { rows := 4, cols := 2, stride := 3, es := td }

/-- The `to` matrix of `main`: 4 rows, 1 col, stride 3, viewing
`td + 2`. -/
noncomputable def train_out : Mat :=
  { rows := 4, cols := 1, stride := 3, es := fun n => td (n + 2) }

end XorNN


namespace Release

/-!
Ownership/release model of the same source, at the pointer level rather
than the value level: here a buffer is only `some`/`none` (allocated
pointer vs `NULL`), which is what `mat_free` and `xor_free` inspect.
The element values play no role in the release claims, so the buffer
payload is reduced to its allocation state.
-/

/-- The `Mat` struct viewed by the release path: dimensions plus the
`es` pointer, which is either an allocated buffer (`some`, abstracted to
a buffer identity) or `NULL` (`none`). -/
structure RMat where
  rows : ℕ
  cols : ℕ
  stride : ℕ
  es : Option ℕ

/-- `mat_free(&m)`: `if (m->es) { free(m->es); m->es = NULL; }` then
`m->rows = m->cols = m->stride = 0`.  Returns the updated struct and
the list of buffers passed to `free` (empty or a singleton). -/
def mat_free (m : RMat) : RMat × List ℕ :=
  ({ rows := 0, cols := 0, stride := 0, es := none },
    match m.es with
    | some b => [b]
    | none => [])

/-- The `Xor` struct viewed by the release path. -/
structure RXor where
  a0 : RMat
  a1 : RMat
  a2 : RMat
  w1 : RMat
  b1 : RMat
  w2 : RMat
  b2 : RMat
  owns_matrices : Int

/-- `xor_free(m)`: if `owns_matrices` is non-zero, `mat_free` all seven
matrices; in every case clear the flag.  Returns the updated struct and
the concatenated list of buffers passed to `free`. -/
def xor_free (m : RXor) : RXor × List ℕ :=
  if m.owns_matrices ≠ 0 then
    let f0 := mat_free m.a0
    let f1 := mat_free m.a1
    let f2 := mat_free m.a2
    let f3 := mat_free m.w1
    let f4 := mat_free m.b1
    let f5 := mat_free m.w2
    let f6 := mat_free m.b2
    ({ a0 := f0.1, a1 := f1.1, a2 := f2.1, w1 := f3.1, b1 := f4.1,
       w2 := f5.1, b2 := f6.1, owns_matrices := 0 },
      f0.2 ++ f1.2 ++ f2.2 ++ f3.2 ++ f4.2 ++ f5.2 ++ f6.2)
  else
    ({ m with owns_matrices := 0 }, [])

end Release


namespace XorNN

/-! Generic lemmas about stores, loop folds and `loopPairs`. -/

theorem store_self (e : ℕ → ℝ) (a : ℕ) (v : ℝ) : store e a v a = v := by
  simp [store]

theorem store_other (e : ℕ → ℝ) (a : ℕ) (v : ℝ) {n : ℕ} (h : n ≠ a) :
    store e a v n = e n := by
  simp [store, h]

/-- Undoing a store by writing back the original value is the identity. -/
theorem store_store_cancel (e : ℕ → ℝ) (a : ℕ) (v : ℝ) :
    store (store e a v) a (e a) = e := by
  funext n
  by_cases h : n = a
  · subst h; simp [store]
  · simp [store, h]

/-- A fold of stores leaves every offset outside the written address set
unchanged (the written value may depend on the whole current buffer). -/
theorem foldl_store_unchanged (A : ℕ × ℕ → ℕ) (F : (ℕ → ℝ) → ℕ × ℕ → ℝ) :
    ∀ (l : List (ℕ × ℕ)) (es : ℕ → ℝ) (n : ℕ), (∀ p ∈ l, A p ≠ n) →
      l.foldl (fun e p => store e (A p) (F e p)) es n = es n := by
  intro l
  induction l with
  | nil => intro es n _; rfl
  | cons h t ih =>
    intro es n hall
    have hh : A h ≠ n := hall h (List.mem_cons_self h t)
    have ht : ∀ p ∈ t, A p ≠ n := fun p hp => hall p (List.mem_cons_of_mem h hp)
    simp only [List.foldl_cons]
    rw [ih _ n ht, store_other _ _ _ (Ne.symm hh)]

/-- When each loop iteration writes its own address with a value read
only from that address, and all addresses in the iteration list are
pairwise distinct, the final value at a visited address is the update
function applied to the original value there. -/
theorem foldl_store_eval (A : ℕ × ℕ → ℕ) (G : ℕ × ℕ → ℝ → ℝ) :
    ∀ (l : List (ℕ × ℕ)) (es : ℕ → ℝ) (p : ℕ × ℕ), p ∈ l →
      l.Pairwise (fun a b => A a ≠ A b) →
      l.foldl (fun e q => store e (A q) (G q (e (A q)))) es (A p)
        = G p (es (A p)) := by
  intro l
  induction l with
  | nil => intro es p hp _; exact absurd hp (List.not_mem_nil p)
  | cons h t ih =>
    intro es p hp hpw
    have hpw' : t.Pairwise (fun a b => A a ≠ A b) := (List.pairwise_cons.mp hpw).2
    have hhd : ∀ q ∈ t, A h ≠ A q := (List.pairwise_cons.mp hpw).1
    simp only [List.foldl_cons]
    rcases List.mem_cons.mp hp with rfl | hpt
    · rw [foldl_store_unchanged A _ t _ (A p) (fun q hq => (hhd q hq).symm)]
      rw [store_self]
    · have hne : A h ≠ A p := hhd p hpt
      rw [ih _ p hpt hpw']
      rw [store_other _ _ _ (Ne.symm hne)]

theorem mem_loopPairs {o i : ℕ} {p : ℕ × ℕ} :
    p ∈ loopPairs o i ↔ p.1 < o ∧ p.2 < i := by
  cases p with
  | mk a b =>
    simp only [loopPairs, List.mem_flatMap, List.mem_map, List.mem_range]
    constructor
    · rintro ⟨x, hx, hy⟩
      rcases hy with ⟨y, hy, hxy⟩
      cases hxy
      exact ⟨hx, hy⟩
    · rintro ⟨ha, hb⟩
      exact ⟨a, ha, b, hb, rfl⟩

theorem loopPairs_nodup (o i : ℕ) : (loopPairs o i).Nodup := by
  have : loopPairs o i = List.range o ×ˢ List.range i := rfl
  rw [this]
  exact List.Nodup.product (List.nodup_range o) (List.nodup_range i)

/-- Row-major addresses `i*s + j` are injective on pairs whose second
component is below the stride `s`. -/
theorem rowMajor_addr_inj {s i1 j1 i2 j2 : ℕ} (h1 : j1 < s) (h2 : j2 < s)
    (h : i1 * s + j1 = i2 * s + j2) : i1 = i2 ∧ j1 = j2 := by
  have hi : i1 = i2 := by
    rcases Nat.lt_trichotomy i1 i2 with hlt | heq | hgt
    · exfalso
      have : i1 * s + j1 < i2 * s + j2 := by
        calc i1 * s + j1 < i1 * s + s := by omega
        _ = (i1 + 1) * s := by ring
        _ ≤ i2 * s := Nat.mul_le_mul_right s hlt
        _ ≤ i2 * s + j2 := Nat.le_add_right _ _
      omega
    · exact heq
    · exfalso
      have : i2 * s + j2 < i1 * s + j1 := by
        calc i2 * s + j2 < i2 * s + s := by omega
        _ = (i2 + 1) * s := by ring
        _ ≤ i1 * s := Nat.mul_le_mul_right s hgt
        _ ≤ i1 * s + j1 := Nat.le_add_right _ _
      omega
  subst hi
  exact ⟨rfl, by omega⟩

/-- Under the `Mat` stride invariant `inner ≤ s`, the addresses touched
by a row-major loop nest are pairwise distinct. -/
theorem loopPairs_pairwise_addr (o inner s : ℕ) (hs : inner ≤ s) :
    (loopPairs o inner).Pairwise
      (fun p q => p.1 * s + p.2 ≠ q.1 * s + q.2) := by
  have hnd := loopPairs_nodup o inner
  refine List.Pairwise.imp_of_mem ?_ hnd
  intro p q hp hq hne heq
  have hpj : p.2 < s := lt_of_lt_of_le (mem_loopPairs.mp hp).2 hs
  have hqj : q.2 < s := lt_of_lt_of_le (mem_loopPairs.mp hq).2 hs
  rcases rowMajor_addr_inj hpj hqj heq with ⟨h1, h2⟩
  exact hne (Prod.ext h1 h2)

/-- A fold preserves any invariant that each step taken from the list
preserves. -/
theorem foldl_preserves_mem {α β : Type} (P : α → Prop) (f : α → β → α) :
    ∀ (l : List β) (a : α), P a → (∀ x b, b ∈ l → P x → P (f x b)) →
      P (l.foldl f a) := by
  intro l
  induction l with
  | nil => intro a ha _; exact ha
  | cons h t ih =>
    intro a ha hstep
    exact ih (f a h) (hstep a h (List.mem_cons_self h t) ha)
      (fun x b hb hx => hstep x b (List.mem_cons_of_mem h hb) hx)

/-- Perturbing one slot by `+eps` and then writing the saved original
value back restores the matrix exactly. -/
theorem matSet_perturb_restore (M : Mat) (i j : ℕ) (eps : ℝ) :
    matSet (matSet M i j (matAt M i j + eps)) i j (matAt M i j) = M := by
  show ({ M with
    es := store (store M.es (i * M.stride + j) (M.es (i * M.stride + j) + eps))
      (i * M.stride + j) (M.es (i * M.stride + j)) } : Mat) = M
  rw [store_store_cancel]

/-- The accumulating inner loop `v += f k` over `k < n` equals the
starting value plus the finite sum. -/
theorem foldl_add_range (f : ℕ → ℝ) :
    ∀ (n : ℕ) (v : ℝ),
      (List.range n).foldl (fun v k => v + f k) v
        = v + ∑ k in Finset.range n, f k := by
  intro n
  induction n with
  | zero => intro v; simp
  | succ n ih =>
    intro v
    rw [List.range_succ, List.foldl_append, ih v]
    simp [Finset.sum_range_succ, add_assoc]

/-! Claim theorems. -/

/-- C9: `mat_dot(dst, a, b)` raises a shape-mismatch assertion if and
only if `a.cols ≠ b.rows`, or `dst.rows ≠ a.rows`, or
`dst.cols ≠ b.cols`; for all shape-conforming arguments it completes
(returns a result) without raising any error. -/
theorem mat_dot_assert_iff (dst a b : Mat) :
    mat_dot dst a b = none ↔
      a.cols ≠ b.rows ∨ dst.rows ≠ a.rows ∨ dst.cols ≠ b.cols := by
  unfold mat_dot
  split_ifs with h
  · simp only [reduceCtorEq, false_iff]
    push_neg
    exact ⟨h.1, h.2.1, h.2.2⟩
  · simp only [true_iff]
    by_contra hc
    push_neg at hc
    exact h ⟨hc.1, hc.2.1, hc.2.2⟩

/-- C2: the claim that every element access of `finite_diff` /
`xor_learn` on the parameter and gradient matrices satisfies
`0 ≤ i < rows` and `0 ≤ j < cols` fails: the `b1` loop nest (bounds
`i < b1.cols`, `j < b1.rows`, access `MAT_AT(b1, i, j)`) iterates the
pair `(1, 0)`, which violates `i < rows` for the 1×2 matrix `b1` and
addresses flat offset `2`, outside the `rows*cols = 2` element range. -/
theorem finite_diff_b1_access_out_of_range (m : Xor)
    (hr : m.b1.rows = 1) (hc : m.b1.cols = 2) (hs : m.b1.stride = 2) :
    ∃ p ∈ loopPairs m.b1.cols m.b1.rows,
      ¬(p.1 < m.b1.rows ∧ p.2 < m.b1.cols) ∧
      m.b1.rows * m.b1.cols ≤ p.1 * m.b1.stride + p.2 := by
  refine ⟨(1, 0), ?_, ?_, ?_⟩
  · rw [mem_loopPairs, hr, hc]
    exact ⟨by norm_num, by norm_num⟩
  · rw [hr]
    intro hcon
    exact absurd hcon.1 (by norm_num)
  · simp [hr, hc, hs]

/-- C2 witness: the out-of-range access exists for concretely allocated
models (`xor_alloc`, whose `b1` is 1×2 with stride 2). -/
theorem finite_diff_b1_access_out_of_range_witness :
    ∃ p ∈ loopPairs xor_alloc.b1.cols xor_alloc.b1.rows,
      ¬(p.1 < xor_alloc.b1.rows ∧ p.2 < xor_alloc.b1.cols) ∧
      xor_alloc.b1.rows * xor_alloc.b1.cols
        ≤ p.1 * xor_alloc.b1.stride + p.2 :=
  finite_diff_b1_access_out_of_range xor_alloc rfl rfl rfl

/-- C3: the claim that `xor_learn` updates every trainable slot exactly
once fails on `b1`: because the loop runs `i < b1.cols`, `j < b1.rows`
and accesses `(i, j)`, it touches flat offsets 0 and 2 of the 1×2
matrix `b1` and never its element `(0, 1)` at offset 1 — this theorem
shows that slot `(0, 1)` of `b1` (the second hidden bias) is left
completely unchanged by `xor_learn`, for every gradient and rate. -/
theorem xor_learn_skips_b1_second_bias (m g : Xor) (rate : ℝ)
    (hr : m.b1.rows = 1) (hc : m.b1.cols = 2) (hs : m.b1.stride = 2) :
    (xor_learn m g rate).b1.es 1 = m.b1.es 1 := by
  show (loopPairs m.b1.cols m.b1.rows).foldl _ m.b1.es 1 = m.b1.es 1
  refine foldl_store_unchanged (fun p => p.1 * m.b1.stride + p.2) _ _ _ _ ?_
  intro p hp
  rw [mem_loopPairs, hr, hc] at hp
  simp only [hs]
  omega

/-- C3 witness at concrete inputs: two freshly allocated models and
rate 0.1. -/
theorem xor_learn_skips_b1_second_bias_witness :
    (xor_learn xor_alloc xor_alloc (1 / 10)).b1.es 1 = xor_alloc.b1.es 1 :=
  xor_learn_skips_b1_second_bias xor_alloc xor_alloc (1 / 10) rfl rfl rfl

/-- C8: `mat_sig` replaces every in-range entry holding `x` with
`sigmoidf x = 1/(1 + e^(-x))`; the sigmoid of any real is strictly
between 0 and 1; and the sigmoid is strictly monotone: `x < y` implies
`sigmoidf x < sigmoidf y`. -/
theorem mat_sig_range_and_mono (m : Mat) (i j : ℕ)
    (hst : m.cols ≤ m.stride) (hi : i < m.rows) (hj : j < m.cols)
    (x y : ℝ) (hxy : x < y) :
    matAt (mat_sig m) i j = sigmoidf (matAt m i j) ∧
    0 < sigmoidf (matAt m i j) ∧ sigmoidf (matAt m i j) < 1 ∧
    sigmoidf x < sigmoidf y := by
  have hrange : ∀ z : ℝ, 0 < sigmoidf z ∧ sigmoidf z < 1 := by
    intro z
    have he : 0 < Real.exp (-z) := Real.exp_pos (-z)
    unfold sigmoidf
    constructor
    · apply div_pos one_pos
      linarith
    · rw [div_lt_one (by linarith)]
      linarith
  have hmono : sigmoidf x < sigmoidf y := by
    have he : Real.exp (-y) < Real.exp (-x) := Real.exp_lt_exp.mpr (by linarith)
    have hpy : 0 < 1 + Real.exp (-y) := by
      have := Real.exp_pos (-y); linarith
    unfold sigmoidf
    exact one_div_lt_one_div_of_lt hpy (by linarith)
  refine ⟨?_, (hrange _).1, (hrange _).2, hmono⟩
  have hmem : ((i, j) : ℕ × ℕ) ∈ loopPairs m.rows m.cols :=
    mem_loopPairs.mpr ⟨hi, hj⟩
  have hpw := loopPairs_pairwise_addr m.rows m.cols m.stride hst
  have hev := foldl_store_eval (fun p => p.1 * m.stride + p.2)
    (fun _ v => sigmoidf v) (loopPairs m.rows m.cols) m.es (i, j) hmem hpw
  exact hev

/-- C8 witness: a concrete 1×1 matrix, entry (0,0), inputs 0 < 1. -/
theorem mat_sig_range_and_mono_witness :
    matAt (mat_sig (mat_alloc 1 1)) 0 0 = sigmoidf (matAt (mat_alloc 1 1) 0 0) ∧
    0 < sigmoidf (matAt (mat_alloc 1 1) 0 0) ∧
    sigmoidf (matAt (mat_alloc 1 1) 0 0) < 1 ∧
    sigmoidf 0 < sigmoidf 1 :=
  mat_sig_range_and_mono (mat_alloc 1 1) 0 0 (by norm_num [mat_alloc])
    (by norm_num [mat_alloc]) (by norm_num [mat_alloc]) 0 1 (by norm_num)

/-- C5: under the shape preconditions, `mat_dot(dst, a, b)` completes
and ACCUMULATES: each destination entry ends at its prior value plus
the matrix-product term `Σ_k a[i][k]*b[k][j]` (so the result is the
plain product only when `dst` started at zero). -/
theorem mat_dot_accumulates (dst a b : Mat) (hst : dst.cols ≤ dst.stride)
    (h1 : a.cols = b.rows) (h2 : dst.rows = a.rows) (h3 : dst.cols = b.cols)
    (i j : ℕ) (hi : i < dst.rows) (hj : j < dst.cols) :
    ∃ r, mat_dot dst a b = some r ∧
      matAt r i j = matAt dst i j
        + ∑ k in Finset.range a.cols, matAt a i k * matAt b k j := by
  refine ⟨mat_dot_go dst a b, ?_, ?_⟩
  · unfold mat_dot
    rw [if_pos ⟨h1, h2, h3⟩]
  · have hmem : ((i, j) : ℕ × ℕ) ∈ loopPairs dst.rows dst.cols :=
      mem_loopPairs.mpr ⟨hi, hj⟩
    have hpw := loopPairs_pairwise_addr dst.rows dst.cols dst.stride hst
    have hev := foldl_store_eval (fun p => p.1 * dst.stride + p.2)
      (fun p v => (List.range a.cols).foldl
        (fun v k => v + matAt a p.1 k * matAt b k p.2) v)
      (loopPairs dst.rows dst.cols) dst.es (i, j) hmem hpw
    simp only [] at hev
    rw [foldl_add_range] at hev
    exact hev

/-- C5 witness: concrete 1×1 matrices. -/
theorem mat_dot_accumulates_witness :
    ∃ r, mat_dot (mat_alloc 1 1) (mat_alloc 1 1) (mat_alloc 1 1) = some r ∧
      matAt r 0 0 = matAt (mat_alloc 1 1) 0 0
        + ∑ k in Finset.range (mat_alloc 1 1).cols,
            matAt (mat_alloc 1 1) 0 k * matAt (mat_alloc 1 1) k 0 :=
  mat_dot_accumulates (mat_alloc 1 1) (mat_alloc 1 1) (mat_alloc 1 1)
    (by norm_num [mat_alloc]) rfl rfl rfl 0 0
    (by norm_num [mat_alloc]) (by norm_num [mat_alloc])

/-- The row loop of `cost` computes the running sum of the per-row
squared errors, while the model component advances to `costState`. -/
theorem cost_fold_spec (m : Xor) (ti tout : Mat) :
    ∀ n : ℕ, (List.range n).foldl (costStep ti tout) (0, m)
      = (∑ i in Finset.range n, rowErr m ti tout i, costState m ti tout n) := by
  intro n
  induction n with
  | zero =>
    simp [costState]
  | succ n ih =>
    have hstate : costState m ti tout (n + 1)
        = (costStep ti tout ((List.range n).foldl (costStep ti tout) (0, m)) n).2 := by
      rw [costState, List.range_succ, List.foldl_append, List.foldl_cons, List.foldl_nil]
    rw [List.range_succ, List.foldl_append, List.foldl_cons, List.foldl_nil, ih,
      Finset.sum_range_succ]
    refine Prod.ext ?_ ?_
    · show (costStep ti tout
        (∑ i in Finset.range n, rowErr m ti tout i, costState m ti tout n) n).1
        = (∑ i in Finset.range n, rowErr m ti tout i) + rowErr m ti tout n
      rw [rowErr, hstate, ih]
      rfl
    · show (costStep ti tout
        (∑ i in Finset.range n, rowErr m ti tout i, costState m ti tout n) n).2
        = costState m ti tout (n + 1)
      rw [hstate, ih]

/-- C7: under `cost`'s shape preconditions, the mean squared error is
non-negative, and it is exactly zero if and only if, for every training
row, the output activation `a2` produced by that row's forward pass
matches the expected row of the training output in every output
column. -/
theorem cost_nonneg_and_zero_iff (m : Xor) (ti tout : Mat)
    (h1 : ti.rows = tout.rows) (h2 : tout.cols = m.a2.cols)
    (h3 : ti.cols = m.a0.cols) :
    0 ≤ cost m ti tout ∧
    (cost m ti tout = 0 ↔
      ∀ i < ti.rows, ∀ j < tout.cols,
        matAt (costState m ti tout (i + 1)).a2 0 j
          = matAt (mat_row tout i) 0 j) := by
  have hcost : cost m ti tout
      = (∑ i in Finset.range ti.rows, rowErr m ti tout i) / (ti.rows : ℝ) := by
    rw [cost, costFull, cost_fold_spec]
  have hrow_nonneg : ∀ i, 0 ≤ rowErr m ti tout i := fun i =>
    Finset.sum_nonneg fun j _ => mul_self_nonneg _
  have hsum_nonneg : 0 ≤ ∑ i in Finset.range ti.rows, rowErr m ti tout i :=
    Finset.sum_nonneg fun i _ => hrow_nonneg i
  constructor
  · rw [hcost]
    exact div_nonneg hsum_nonneg (Nat.cast_nonneg _)
  · rw [hcost]
    constructor
    · intro h0 i hi j hj
      have hn : ((ti.rows : ℝ)) ≠ 0 := by
        have : 0 < ti.rows := Nat.pos_of_ne_zero (by omega)
        exact_mod_cast this.ne.symm -- nonzero cast
      have hsum : ∑ i in Finset.range ti.rows, rowErr m ti tout i = 0 := by
        rcases div_eq_zero_iff.mp h0 with h | h
        · exact h
        · exact absurd h hn
      have hri : rowErr m ti tout i = 0 :=
        (Finset.sum_eq_zero_iff_of_nonneg fun k _ => hrow_nonneg k).mp hsum i
          (Finset.mem_range.mpr hi)
      have hsq := (Finset.sum_eq_zero_iff_of_nonneg
        fun k _ => mul_self_nonneg _).mp hri j (Finset.mem_range.mpr hj)
      have := mul_self_eq_zero.mp hsq
      linarith
    · intro hall
      have hsum : ∑ i in Finset.range ti.rows, rowErr m ti tout i = 0 :=
        Finset.sum_eq_zero fun i hi =>
          Finset.sum_eq_zero fun j hj => by
            rw [hall i (Finset.mem_range.mp hi) j (Finset.mem_range.mp hj)]
            ring
      rw [hsum, zero_div]

/-- C7 witness: two freshly allocated models would not match shapes;
the main program's training matrices `train_in`, `train_out` against a
freshly allocated model do. -/
theorem cost_nonneg_and_zero_iff_witness :
    0 ≤ cost xor_alloc train_in train_out ∧
    (cost xor_alloc train_in train_out = 0 ↔
      ∀ i < train_in.rows, ∀ j < train_out.cols,
        matAt (costState xor_alloc train_in train_out (i + 1)).a2 0 j
          = matAt (mat_row train_out i) 0 j) :=
  cost_nonneg_and_zero_iff xor_alloc train_in train_out rfl rfl rfl

/-- `costStep` never touches the parameter matrices (only `a0`, `a1`,
`a2`). -/
theorem costStep_preserves_params (ti tout : Mat) (acc : ℝ × Xor) (i : ℕ) :
    (costStep ti tout acc i).2.w1 = acc.2.w1 ∧
    (costStep ti tout acc i).2.b1 = acc.2.b1 ∧
    (costStep ti tout acc i).2.w2 = acc.2.w2 ∧
    (costStep ti tout acc i).2.b2 = acc.2.b2 :=
  ⟨rfl, rfl, rfl, rfl⟩

/-- `cost` mutates only the activation matrices of the model: all four
parameter matrices come back untouched. -/
theorem costFull_preserves_params (m : Xor) (ti tout : Mat) :
    (costFull m ti tout).2.w1 = m.w1 ∧ (costFull m ti tout).2.b1 = m.b1 ∧
    (costFull m ti tout).2.w2 = m.w2 ∧ (costFull m ti tout).2.b2 = m.b2 := by
  have h := foldl_preserves_mem
    (fun x : ℝ × Xor => x.2.w1 = m.w1 ∧ x.2.b1 = m.b1 ∧
      x.2.w2 = m.w2 ∧ x.2.b2 = m.b2)
    (costStep ti tout) (List.range ti.rows) (0, m) ⟨rfl, rfl, rfl, rfl⟩
    (fun x b _ hx => by
      obtain ⟨p1, p2, p3, p4⟩ := costStep_preserves_params ti tout x b
      exact ⟨p1.trans hx.1, p2.trans hx.2.1, p3.trans hx.2.2.1,
        p4.trans hx.2.2.2⟩)
  exact h

/-- A fold whose step leaves all four parameter matrices of the model
component unchanged leaves them unchanged overall. -/
theorem foldl_params_invariant (f : Xor × Xor → ℕ × ℕ → Xor × Xor)
    (hf : ∀ s p, (f s p).1.w1 = s.1.w1 ∧ (f s p).1.b1 = s.1.b1 ∧
      (f s p).1.w2 = s.1.w2 ∧ (f s p).1.b2 = s.1.b2) :
    ∀ (l : List (ℕ × ℕ)) (s : Xor × Xor),
      (l.foldl f s).1.w1 = s.1.w1 ∧ (l.foldl f s).1.b1 = s.1.b1 ∧
      (l.foldl f s).1.w2 = s.1.w2 ∧ (l.foldl f s).1.b2 = s.1.b2 := by
  intro l
  induction l with
  | nil => intro s; exact ⟨rfl, rfl, rfl, rfl⟩
  | cons h t ih =>
    intro s
    obtain ⟨i1, i2, i3, i4⟩ := ih (f s h)
    obtain ⟨j1, j2, j3, j4⟩ := hf s h
    exact ⟨i1.trans j1, i2.trans j2, i3.trans j3, i4.trans j4⟩

/-- One `w1` gradient step perturbs, evaluates and restores: the model
component's parameter matrices are exactly preserved. -/
theorem fdStepW1_preserves_params (ti tout : Mat) (eps c : ℝ)
    (s : Xor × Xor) (p : ℕ × ℕ) :
    (fdStepW1 ti tout eps c s p).1.w1 = s.1.w1 ∧
    (fdStepW1 ti tout eps c s p).1.b1 = s.1.b1 ∧
    (fdStepW1 ti tout eps c s p).1.w2 = s.1.w2 ∧
    (fdStepW1 ti tout eps c s p).1.b2 = s.1.b2 := by
  obtain ⟨h1, h2, h3, h4⟩ := costFull_preserves_params
    { s.1 with w1 := matSet s.1.w1 p.1 p.2 (matAt s.1.w1 p.1 p.2 + eps) } ti tout
  refine ⟨?_, h2, h3, h4⟩
  show matSet (costFull
    { s.1 with w1 := matSet s.1.w1 p.1 p.2 (matAt s.1.w1 p.1 p.2 + eps) }
    ti tout).2.w1 p.1 p.2 (matAt s.1.w1 p.1 p.2) = s.1.w1
  rw [h1]
  exact matSet_perturb_restore s.1.w1 p.1 p.2 eps

/-- One `b1` gradient step: model parameters exactly preserved. -/
theorem fdStepB1_preserves_params (ti tout : Mat) (eps c : ℝ)
    (s : Xor × Xor) (p : ℕ × ℕ) :
    (fdStepB1 ti tout eps c s p).1.w1 = s.1.w1 ∧
    (fdStepB1 ti tout eps c s p).1.b1 = s.1.b1 ∧
    (fdStepB1 ti tout eps c s p).1.w2 = s.1.w2 ∧
    (fdStepB1 ti tout eps c s p).1.b2 = s.1.b2 := by
  obtain ⟨h1, h2, h3, h4⟩ := costFull_preserves_params
    { s.1 with b1 := matSet s.1.b1 p.1 p.2 (matAt s.1.b1 p.1 p.2 + eps) } ti tout
  refine ⟨h1, ?_, h3, h4⟩
  show matSet (costFull
    { s.1 with b1 := matSet s.1.b1 p.1 p.2 (matAt s.1.b1 p.1 p.2 + eps) }
    ti tout).2.b1 p.1 p.2 (matAt s.1.b1 p.1 p.2) = s.1.b1
  rw [h2]
  exact matSet_perturb_restore s.1.b1 p.1 p.2 eps

/-- One `w2` gradient step: model parameters exactly preserved. -/
theorem fdStepW2_preserves_params (ti tout : Mat) (eps c : ℝ)
    (s : Xor × Xor) (p : ℕ × ℕ) :
    (fdStepW2 ti tout eps c s p).1.w1 = s.1.w1 ∧
    (fdStepW2 ti tout eps c s p).1.b1 = s.1.b1 ∧
    (fdStepW2 ti tout eps c s p).1.w2 = s.1.w2 ∧
    (fdStepW2 ti tout eps c s p).1.b2 = s.1.b2 := by
  obtain ⟨h1, h2, h3, h4⟩ := costFull_preserves_params
    { s.1 with w2 := matSet s.1.w2 p.1 p.2 (matAt s.1.w2 p.1 p.2 + eps) } ti tout
  refine ⟨h1, h2, ?_, h4⟩
  show matSet (costFull
    { s.1 with w2 := matSet s.1.w2 p.1 p.2 (matAt s.1.w2 p.1 p.2 + eps) }
    ti tout).2.w2 p.1 p.2 (matAt s.1.w2 p.1 p.2) = s.1.w2
  rw [h3]
  exact matSet_perturb_restore s.1.w2 p.1 p.2 eps

/-- One `b2` gradient step: model parameters exactly preserved. -/
theorem fdStepB2_preserves_params (ti tout : Mat) (eps c : ℝ)
    (s : Xor × Xor) (p : ℕ × ℕ) :
    (fdStepB2 ti tout eps c s p).1.w1 = s.1.w1 ∧
    (fdStepB2 ti tout eps c s p).1.b1 = s.1.b1 ∧
    (fdStepB2 ti tout eps c s p).1.w2 = s.1.w2 ∧
    (fdStepB2 ti tout eps c s p).1.b2 = s.1.b2 := by
  obtain ⟨h1, h2, h3, h4⟩ := costFull_preserves_params
    { s.1 with b2 := matSet s.1.b2 p.1 p.2 (matAt s.1.b2 p.1 p.2 + eps) } ti tout
  refine ⟨h1, h2, h3, ?_⟩
  show matSet (costFull
    { s.1 with b2 := matSet s.1.b2 p.1 p.2 (matAt s.1.b2 p.1 p.2 + eps) }
    ti tout).2.b2 p.1 p.2 (matAt s.1.b2 p.1 p.2) = s.1.b2
  rw [h4]
  exact matSet_perturb_restore s.1.b2 p.1 p.2 eps

/-- C6: `finite_diff` leaves every trainable parameter of the model
exactly as it found it: each perturbation of `+eps` is undone by
writing back the saved original value, so after the call all four
parameter matrices `w1`, `b1`, `w2`, `b2` (shape fields and every
buffer element, including the ones reached through the transposed loop
indices) equal their values before the call. -/
theorem finite_diff_restores_params (m g : Xor) (ti tout : Mat) (eps : ℝ) :
    (finite_diff m g ti tout eps).1.w1 = m.w1 ∧
    (finite_diff m g ti tout eps).1.b1 = m.b1 ∧
    (finite_diff m g ti tout eps).1.w2 = m.w2 ∧
    (finite_diff m g ti tout eps).1.b2 = m.b2 := by
  obtain ⟨c1, c2, c3, c4⟩ := costFull_preserves_params m ti tout
  have h1 := foldl_params_invariant _
    (fdStepW1_preserves_params ti tout eps (costFull m ti tout).1)
    (loopPairs m.w1.cols m.w1.rows) ((costFull m ti tout).2, g)
  have h2 := foldl_params_invariant _
    (fdStepB1_preserves_params ti tout eps (costFull m ti tout).1)
    (loopPairs m.b1.cols m.b1.rows)
    ((loopPairs m.w1.cols m.w1.rows).foldl
      (fdStepW1 ti tout eps (costFull m ti tout).1) ((costFull m ti tout).2, g))
  have h3 := foldl_params_invariant _
    (fdStepW2_preserves_params ti tout eps (costFull m ti tout).1)
    (loopPairs m.w2.cols m.w2.rows)
    ((loopPairs m.b1.cols m.b1.rows).foldl
      (fdStepB1 ti tout eps (costFull m ti tout).1)
      ((loopPairs m.w1.cols m.w1.rows).foldl
        (fdStepW1 ti tout eps (costFull m ti tout).1)
        ((costFull m ti tout).2, g)))
  have h4 := foldl_params_invariant _
    (fdStepB2_preserves_params ti tout eps (costFull m ti tout).1)
    (loopPairs m.b2.cols m.b2.rows)
    ((loopPairs m.w2.cols m.w2.rows).foldl
      (fdStepW2 ti tout eps (costFull m ti tout).1)
      ((loopPairs m.b1.cols m.b1.rows).foldl
        (fdStepB1 ti tout eps (costFull m ti tout).1)
        ((loopPairs m.w1.cols m.w1.rows).foldl
          (fdStepW1 ti tout eps (costFull m ti tout).1)
          ((costFull m ti tout).2, g))))
  exact ⟨(h4.1.trans (h3.1.trans (h2.1.trans h1.1))).trans c1,
    (h4.2.1.trans (h3.2.1.trans (h2.2.1.trans h1.2.1))).trans c2,
    (h4.2.2.1.trans (h3.2.2.1.trans (h2.2.2.1.trans h1.2.2.1))).trans c3,
    (h4.2.2.2.trans (h3.2.2.2.trans (h2.2.2.2.trans h1.2.2.2))).trans c4⟩

/-- A fold whose step never touches the gradient component's `b1`
matrix leaves it unchanged overall. -/
theorem foldl_grad_b1_invariant (f : Xor × Xor → ℕ × ℕ → Xor × Xor)
    (hf : ∀ s p, (f s p).2.b1 = s.2.b1) :
    ∀ (l : List (ℕ × ℕ)) (s : Xor × Xor), (l.foldl f s).2.b1 = s.2.b1 := by
  intro l
  induction l with
  | nil => intro s; rfl
  | cons h t ih =>
    intro s
    exact (ih (f s h)).trans (hf s h)

/-- C1: the claim that `finite_diff` fills EVERY gradient slot fails.
Because the `b1` loop nest runs `i < b1.cols`, `j < b1.rows` and writes
`MAT_AT(g->b1, i, j)`, it writes flat offsets 0 and 2 of the gradient's
1×2 `b1` matrix, never its element `(0, 1)` (offset 1): the forward
difference for the second hidden bias is never stored.  This theorem
shows that offset 1 of `g->b1` is bit-for-bit unchanged by the whole
`finite_diff` call, for every model, gradient, training set and
epsilon. -/
theorem finite_diff_skips_gradient_b1_slot (m g : Xor) (ti tout : Mat)
    (eps : ℝ) (hmr : m.b1.rows = 1) (hmc : m.b1.cols = 2)
    (hgs : g.b1.stride = 2) :
    (finite_diff m g ti tout eps).2.b1.es 1 = g.b1.es 1 := by
  have hw1 : ∀ (s : Xor × Xor) (p : ℕ × ℕ),
      (fdStepW1 ti tout eps (costFull m ti tout).1 s p).2.b1 = s.2.b1 :=
    fun s p => rfl
  have hw2 : ∀ (s : Xor × Xor) (p : ℕ × ℕ),
      (fdStepW2 ti tout eps (costFull m ti tout).1 s p).2.b1 = s.2.b1 :=
    fun s p => rfl
  have hb2 : ∀ (s : Xor × Xor) (p : ℕ × ℕ),
      (fdStepB2 ti tout eps (costFull m ti tout).1 s p).2.b1 = s.2.b1 :=
    fun s p => rfl
  have h1 := foldl_grad_b1_invariant _ hw1
    (loopPairs m.w1.cols m.w1.rows) ((costFull m ti tout).2, g)
  have hb1 := foldl_preserves_mem
    (fun s : Xor × Xor => s.2.b1.es 1 = g.b1.es 1 ∧ s.2.b1.stride = 2)
    (fdStepB1 ti tout eps (costFull m ti tout).1)
    (loopPairs m.b1.cols m.b1.rows)
    ((loopPairs m.w1.cols m.w1.rows).foldl
      (fdStepW1 ti tout eps (costFull m ti tout).1) ((costFull m ti tout).2, g))
    (by
      simp only []
      constructor
      · rw [h1]
      · rw [h1]; exact hgs)
    (by
      intro x p hp hx
      rw [mem_loopPairs, hmc, hmr] at hp
      constructor
      · show store x.2.b1.es (p.1 * x.2.b1.stride + p.2) _ 1 = g.b1.es 1
        rw [store_other _ _ _ (by rw [hx.2]; omega)]
        exact hx.1
      · show x.2.b1.stride = 2
        exact hx.2)
  have h3 := foldl_grad_b1_invariant _ hw2
    (loopPairs m.w2.cols m.w2.rows)
    ((loopPairs m.b1.cols m.b1.rows).foldl
      (fdStepB1 ti tout eps (costFull m ti tout).1)
      ((loopPairs m.w1.cols m.w1.rows).foldl
        (fdStepW1 ti tout eps (costFull m ti tout).1)
        ((costFull m ti tout).2, g)))
  have h4 := foldl_grad_b1_invariant _ hb2
    (loopPairs m.b2.cols m.b2.rows)
    ((loopPairs m.w2.cols m.w2.rows).foldl
      (fdStepW2 ti tout eps (costFull m ti tout).1)
      ((loopPairs m.b1.cols m.b1.rows).foldl
        (fdStepB1 ti tout eps (costFull m ti tout).1)
        ((loopPairs m.w1.cols m.w1.rows).foldl
          (fdStepW1 ti tout eps (costFull m ti tout).1)
          ((costFull m ti tout).2, g))))
  have hfd : (finite_diff m g ti tout eps).2.b1
      = ((loopPairs m.b1.cols m.b1.rows).foldl
          (fdStepB1 ti tout eps (costFull m ti tout).1)
          ((loopPairs m.w1.cols m.w1.rows).foldl
            (fdStepW1 ti tout eps (costFull m ti tout).1)
            ((costFull m ti tout).2, g))).2.b1 := h4.trans h3
  rw [hfd]
  exact hb1.1

/-- C1 witness at concrete inputs: freshly allocated model and gradient
(`b1` is 1×2, stride 2), the program's training matrices, eps = 0.1. -/
theorem finite_diff_skips_gradient_b1_slot_witness :
    (finite_diff xor_alloc xor_alloc train_in train_out (1 / 10)).2.b1.es 1
      = xor_alloc.b1.es 1 :=
  finite_diff_skips_gradient_b1_slot xor_alloc xor_alloc train_in train_out
    (1 / 10) rfl rfl rfl

/-- C4 counterexample: with frozen (all-zero) parameters and the same
input held in `a0`, calling `forward_xor` twice in succession does NOT
reproduce the first call's `a2`: because `mat_dot` accumulates onto the
existing activations, the second call starts from `a1`/`a2` already
holding sigmoid outputs, and the freshly allocated model's output moves
from `σ(0)` to `σ(σ(0))` (`σ(0) = 1/2` but `σ(1/2) ≠ 1/2`). -/
theorem forward_xor_twice_in_succession_differs :
    matAt (forward_xor (forward_xor xor_alloc)).a2 0 0
      ≠ matAt (forward_xor xor_alloc).a2 0 0 := by
  have h1 : matAt (forward_xor xor_alloc).a2 0 0 = sigmoidf 0 := by
    simp [forward_xor, mat_sig, mat_sum_go, mat_dot_go, mat_alloc, xor_alloc,
      loopPairs, matAt, store, List.range_succ]
  have h2 : matAt (forward_xor (forward_xor xor_alloc)).a2 0 0
      = sigmoidf (sigmoidf 0) := by
    simp [forward_xor, mat_sig, mat_sum_go, mat_dot_go, mat_alloc, xor_alloc,
      loopPairs, matAt, store, List.range_succ]
  rw [h1, h2]
  have hs0 : sigmoidf 0 = 1 / 2 := by
    unfold sigmoidf
    rw [neg_zero, Real.exp_zero]
    norm_num
  rw [hs0]
  unfold sigmoidf
  intro h
  have hp : (0:ℝ) < 1 + Real.exp (-(1 / 2)) := by positivity
  rw [div_eq_iff (ne_of_gt hp)] at h
  have he1 : Real.exp (-(1 / 2)) = 1 := by linarith
  have h3 := Real.exp_injective (he1.trans Real.exp_zero.symm)
  norm_num at h3

/-- C4 amended: the forward pass is idempotent once the activation
buffers are freshly zeroed before each call (the spec's stated
precondition): for any model, re-zeroing `a1`/`a2` between the two
calls makes the second call's `a2` identical to the first call's.
This holds because `freshActs` discards exactly the state that
`forward_xor` mutates. -/
theorem forward_xor_idempotent_with_fresh_activations (m : Xor) :
    (forward_xor (freshActs (forward_xor (freshActs m)))).a2
      = (forward_xor (freshActs m)).a2 := by
  rw [show freshActs (forward_xor (freshActs m)) = freshActs m from rfl]

end XorNN

/-- C10: after `mat_free`, the matrix is in the defined released state
(`rows = cols = stride = 0`, buffer pointer `NULL`), and a second
`xor_free` on the same network performs no `free` at all (the ownership
flag was cleared by the first call), leaving the struct unchanged — so
no buffer is ever released twice. -/
theorem mat_free_xor_free_release_safe :
    (∀ m : Release.RMat,
      (Release.mat_free m).1.rows = 0 ∧ (Release.mat_free m).1.cols = 0 ∧
      (Release.mat_free m).1.stride = 0 ∧ (Release.mat_free m).1.es = none) ∧
    (∀ x : Release.RXor,
      (Release.xor_free (Release.xor_free x).1).2 = [] ∧
      (Release.xor_free (Release.xor_free x).1).1 = (Release.xor_free x).1) := by
  constructor
  · intro m
    exact ⟨rfl, rfl, rfl, rfl⟩
  · intro x
    have howns : (Release.xor_free x).1.owns_matrices = 0 := by
      unfold Release.xor_free
      split_ifs <;> rfl
    have hfree : ∀ y : Release.RXor, y.owns_matrices = 0 →
        Release.xor_free y = (y, []) := by
      intro y hy
      unfold Release.xor_free
      rw [if_neg (by rw [hy]; exact fun h => h rfl)]
      cases y with
      | mk a0 a1 a2 w1 b1 w2 b2 owns =>
        simp only at hy
        subst hy
        rfl
    have h2 := hfree _ howns
    exact ⟨by rw [h2], by rw [h2]⟩
